import Mathlib

/-!
Verification of the ATM simulator (`src/atm_simulator.py`).

The program is a single class `ATMSimulator` holding a balance, a PIN, a
maximal number of authentication attempts and a transaction history, with
operations `authenticate`, `deposit`, `withdraw`, `check_balance` and
`print_transaction_history`.

The embedding below mirrors the Python code:

* Python numbers are modelled at two levels of precision.  `PyNum` is an
  exact rational together with the special floating-point values `inf`,
  `-inf` and `nan`, with IEEE-style comparison and arithmetic on the special
  values; it is used for the claims whose content is control flow, error
  paths and sign invariants, which are insensitive to rounding.  The
  `Dyadic` development models the finite values faithfully as IEEE-754
  binary64 (mantissa-exponent pairs with round-to-nearest, ties-to-even
  rounding after every `+`/`-`, as Python floats perform); the claims whose
  content is the exact value of the balance (the withdrawal equation, the
  deposit partial sums, and the numerical-precision claim) are settled over
  the `Dyadic`-level ledger `FATMSimulator`, since the exact-rational
  idealization would make them trivially true where the program violates
  them.
* `deposit` / `withdraw` return `True`/`False` in Python and print a distinct
  message on each exit path; the embedding returns an `OpResult` recording
  which exit path was taken, together with the new state.  `OpResult.toBool`
  is the actual Python return value.
* `authenticate` reads PINs through `getpass`, which can also raise
  `KeyboardInterrupt`; the collaborator is modelled as a stream of
  `AuthInput` events.  The Python function returns `True`/`False` and prints
  a distinct message on each exit path; the embedding returns an
  `AuthOutcome` recording the exit path (`AuthOutcome.toBool` is the Python
  return value), together with the number of `getpass` prompts issued and
  the final value of the `attempts` counter.
-/

/-- A Python float/number value: a finite (exact) rational or one of the
special values `inf`, `-inf`, `nan`.  Finite arithmetic is idealized as
exact rational arithmetic; binary64 rounding is treated separately. -/
inductive PyNum where
  | finite : ℚ → PyNum
  | inf : PyNum
  | ninf : PyNum
  | nan : PyNum
deriving DecidableEq

namespace PyNum

/-- Python `x < y` on numbers: any comparison with `nan` is `False`. -/
def lt : PyNum → PyNum → Bool
  | nan, _ => false
  | _, nan => false
  | finite a, finite b => a < b
  | finite _, inf => true
  | finite _, ninf => false
  | inf, _ => false
  | ninf, ninf => false
  | ninf, _ => true

/-- Python `x <= y` on numbers: any comparison with `nan` is `False`. -/
def le : PyNum → PyNum → Bool
  | nan, _ => false
  | _, nan => false
  | finite a, finite b => a ≤ b
  | finite _, inf => true
  | finite _, ninf => false
  | inf, inf => true
  | inf, _ => false
  | ninf, _ => true

/-- Python `x + y`: `nan` is absorbing, `inf + -inf = nan`. -/
def add : PyNum → PyNum → PyNum
  | nan, _ => nan
  | _, nan => nan
  | finite a, finite b => finite (a + b)
  | finite _, inf => inf
  | inf, finite _ => inf
  | finite _, ninf => ninf
  | ninf, finite _ => ninf
  | inf, inf => inf
  | ninf, ninf => ninf
  | inf, ninf => nan
  | ninf, inf => nan

/-- Python `x - y`: `nan` is absorbing, `inf - inf = nan`. -/
def sub : PyNum → PyNum → PyNum
  | nan, _ => nan
  | _, nan => nan
  | finite a, finite b => finite (a - b)
  | finite _, inf => ninf
  | inf, finite _ => inf
  | finite _, ninf => inf
  | ninf, finite _ => ninf
  | inf, inf => nan
  | ninf, ninf => nan
  | inf, ninf => inf
  | ninf, inf => ninf

/-- Whether the value is a negative number: a finite rational `< 0` or `-inf`
(`inf` and `nan` are not negative). -/
def isNeg : PyNum → Bool
  | finite a => a < 0
  | ninf => true
  | inf => false
  | nan => false

instance : OfNat PyNum 0 := ⟨finite 0⟩

end PyNum

/-- One entry of `self._transaction_history` (line 27-32 of the source): the
dict built by `_log_transaction`.  `balance` is `self._balance` at logging
time, i.e. after the mutation.  `timestamp` is the string obtained from
`datetime.now()`; the clock is an external input to the embedding. -/
structure Transaction where
  type : String
  amount : PyNum
  balance : PyNum
  timestamp : String
deriving DecidableEq

/-- The state of an `ATMSimulator` instance: the four attributes set by
`__init__` (line 6-17 of the source). -/
structure ATMSimulator where
  _balance : PyNum
  _pin : String
  _max_attempts : ℕ
  _transaction_history : List Transaction
deriving DecidableEq

/-- `ATMSimulator.__init__`: stores the arguments, empty history.  The
source performs no validation here. -/
def ATMSimulator.mk0 (initial_balance : PyNum) (pin : String)
    (max_attempts : ℕ) : ATMSimulator :=
  ⟨initial_balance, pin, max_attempts, []⟩

/-- `ATMSimulator._log_transaction` (line 19-33): appends the transaction
dict, recording the current (already updated) balance; the timestamp comes
from the clock, passed here as `now`. -/
def ATMSimulator._log_transaction (atm : ATMSimulator)
    (transaction_type : String) (amount : PyNum) (now : String) :
    ATMSimulator :=
  { atm with _transaction_history :=
      atm._transaction_history ++
        [⟨transaction_type, amount, atm._balance, now⟩] }

/-- Exit paths of `deposit` / `withdraw`.  The Python functions return a
bool (`toBool`) but print a distinct message on each path: `ok` is the
success return, `invalidAmount` the "Invalid ... amount" message for
`amount <= 0`, `insufficientFunds` the "Insufficient funds!" message, and
`parseError` the "Invalid input" message of the `except ValueError` arm. -/
inductive OpResult where
  | ok : OpResult
  | invalidAmount : OpResult
  | insufficientFunds : OpResult
  | parseError : OpResult
deriving DecidableEq

/-- The boolean actually returned to the caller by `deposit`/`withdraw`. -/
def OpResult.toBool : OpResult → Bool
  | .ok => true
  | _ => false

/-- `ATMSimulator.deposit` (line 66-87), after the `float(...)` coercion has
produced the number `amount`: rejects `amount <= 0`, otherwise adds to the
balance and logs a `'deposit'` transaction with the new balance. -/
def ATMSimulator.deposit (atm : ATMSimulator) (amount : PyNum)
    (now : String) : OpResult × ATMSimulator :=
  if PyNum.le amount 0 then (.invalidAmount, atm)
  else
    let atm' := { atm with _balance := atm._balance.add amount }
    (.ok, atm'._log_transaction "deposit" amount now)

/-- `ATMSimulator.withdraw` (line 89-114), after the `float(...)` coercion:
rejects `amount <= 0`, then rejects `amount > self._balance`, otherwise
subtracts and logs a `'withdrawal'` transaction with the new balance. -/
def ATMSimulator.withdraw (atm : ATMSimulator) (amount : PyNum)
    (now : String) : OpResult × ATMSimulator :=
  if PyNum.le amount 0 then (.invalidAmount, atm)
  else if PyNum.lt atm._balance amount then (.insufficientFunds, atm)
  else
    let atm' := { atm with _balance := atm._balance.sub amount }
    (.ok, atm'._log_transaction "withdrawal" amount now)

/-- One event supplied by the collaborator at a `getpass` prompt: either a
credential string, or `KeyboardInterrupt`. -/
inductive AuthInput where
  | cred : String → AuthInput
  | interrupt : AuthInput

/-- Exit paths of `authenticate`.  The Python function returns a bool
(`toBool`) but prints a distinct message on each path: "Authentication
successful!" / "Too many invalid attempts. Account locked." / "Operation
cancelled.". -/
inductive AuthOutcome where
  | authenticated : AuthOutcome
  | lockedOut : AuthOutcome
  | cancelled : AuthOutcome
deriving DecidableEq

/-- The boolean actually returned to the caller by `authenticate`. -/
def AuthOutcome.toBool : AuthOutcome → Bool
  | .authenticated => true
  | _ => false

/-- The `while attempts < self._max_attempts` loop of `authenticate`
(line 41-58).  `remaining = max_attempts - attempts` iterations are left;
`idx` counts `getpass` prompts issued so far (and indexes the collaborator
stream); `attempts` is the Python `attempts` counter.  Returns the exit
path, the total number of prompts issued, and the final `attempts`. -/
def authGo (pin : String) (inputs : ℕ → AuthInput) :
    ℕ → ℕ → ℕ → AuthOutcome × ℕ × ℕ
  | 0, idx, attempts => (.lockedOut, idx, attempts)
  | remaining + 1, idx, attempts =>
    match inputs idx with
    | .interrupt => (.cancelled, idx + 1, attempts)
    | .cred s =>
      if s = pin then (.authenticated, idx + 1, attempts)
      else authGo pin inputs remaining (idx + 1) (attempts + 1)

/-- `ATMSimulator.authenticate` (line 35-60): starts with `attempts = 0`
and runs the retry loop against the collaborator stream `inputs`. -/
def ATMSimulator.authenticate (atm : ATMSimulator)
    (inputs : ℕ → AuthInput) : AuthOutcome × ℕ × ℕ :=
  authGo atm._pin inputs atm._max_attempts 0 0

/-- The whitespace characters stripped around the argument of Python's
`float(str)`. -/
def pyWs (c : Char) : Bool :=
  c = ' ' || c = '\t' || c = '\n' || c = '\r' || c = '\x0b' || c = '\x0c'

/-- Splits off the leading run of decimal digits. -/
def takeDigits : List Char → List Char × List Char
  | [] => ([], [])
  | c :: r =>
    if c.isDigit then
      let (d, r') := takeDigits r
      (c :: d, r')
    else ([], c :: r)

/-- The number denoted by a list of decimal digits. -/
def digitsVal (ds : List Char) : ℕ :=
  ds.foldl (fun a c => 10 * a + (c.toNat - Char.toNat '0')) 0

/-- An optionally signed nonempty digit string, as the exponent part of a
float literal. -/
def parseExp : List Char → Option ℤ
  | [] => none
  | '+' :: r => if r ≠ [] ∧ r.all Char.isDigit then some (digitsVal r : ℤ) else none
  | '-' :: r => if r ≠ [] ∧ r.all Char.isDigit then some (-(digitsVal r : ℤ)) else none
  | r => if r.all Char.isDigit then some (digitsVal r : ℤ) else none

/-- An unsigned float literal: digits with optional fraction part and
optional `e`/`E` exponent (at least one digit in the mantissa).  The result
is the pair `(n, e)` denoting `n * 10 ^ e`; keeping it in integer form
delays all rational arithmetic to `decValue`. -/
def parseNumber (l : List Char) : Option (ℤ × ℤ) :=
  let (d1, r1) := takeDigits l
  match r1 with
  | [] => if d1 = [] then none else some ((digitsVal d1 : ℤ), 0)
  | '.' :: r2 =>
    let (d2, r3) := takeDigits r2
    if d1 = [] ∧ d2 = [] then none
    else
      let n : ℤ := (digitsVal (d1 ++ d2) : ℤ)
      let e : ℤ := -(d2.length : ℤ)
      match r3 with
      | [] => some (n, e)
      | 'e' :: r4 => (parseExp r4).map (fun x => (n, e + x))
      | 'E' :: r4 => (parseExp r4).map (fun x => (n, e + x))
      | _ => none
  | 'e' :: r2 =>
    if d1 = [] then none
    else (parseExp r2).map (fun x => ((digitsVal d1 : ℤ), x))
  | 'E' :: r2 =>
    if d1 = [] then none
    else (parseExp r2).map (fun x => ((digitsVal d1 : ℤ), x))
  | _ => none

/-- The rational denoted by the decimal pair `n * 10 ^ e`. -/
def decValue (n e : ℤ) : ℚ :=
  if 0 ≤ e then (n : ℚ) * 10 ^ e.toNat else (n : ℚ) / 10 ^ (-e).toNat

/-- The body of a float literal after the optional sign. -/
def pyFloatBody (l : List Char) (neg : Bool) : Option PyNum :=
  let low := l.map Char.toLower
  if low = ['i', 'n', 'f'] ∨ low = ['i', 'n', 'f', 'i', 'n', 'i', 't', 'y'] then
    some (if neg then .ninf else .inf)
  else if low = ['n', 'a', 'n'] then some .nan
  else (parseNumber l).map
    (fun p => .finite (decValue (if neg then -p.1 else p.1) p.2))

/-- Modelled from the spec: Python's builtin `float(str)` conversion, which
is called by `deposit`/`withdraw` but is not part of `src/atm_simulator.py`.
It strips surrounding whitespace, then accepts an optionally signed decimal
literal (digits with optional fraction and optional scientific-notation
exponent) or the special names `inf`/`infinity`/`nan` (case-insensitive),
and raises `ValueError` (here: `none`) on anything else.  Digit-group
underscores accepted by CPython are not modelled. -/
def pyFloatOfString (s : String) : Option PyNum :=
  let l := ((s.data.dropWhile (pyWs ·)).reverse.dropWhile (pyWs ·)).reverse
  match l with
  | '+' :: r => pyFloatBody r false
  | '-' :: r => pyFloatBody r true
  | r => pyFloatBody r false

/-- `deposit` called with a string argument, as the menu loop does
(line 148-149): `float(amount)` may raise `ValueError`, which the
`except` arm catches, returning `False` with no state change. -/
def ATMSimulator.depositStr (atm : ATMSimulator) (s : String)
    (now : String) : OpResult × ATMSimulator :=
  match pyFloatOfString s with
  | none => (.parseError, atm)
  | some v => atm.deposit v now

/-- `withdraw` called with a string argument, as the menu loop does
(line 151-152). -/
def ATMSimulator.withdrawStr (atm : ATMSimulator) (s : String)
    (now : String) : OpResult × ATMSimulator :=
  match pyFloatOfString s with
  | none => (.parseError, atm)
  | some v => atm.withdraw v now

/-- One ledger call with an arbitrary argument: deposit or withdraw, given
either a number (any `PyNum`) or a raw string, plus the clock value. -/
inductive Op where
  | depositN : PyNum → String → Op
  | withdrawN : PyNum → String → Op
  | depositS : String → String → Op
  | withdrawS : String → String → Op

/-- Executes one ledger call, keeping the resulting state. -/
def runOp (atm : ATMSimulator) : Op → ATMSimulator
  | .depositN a now => (atm.deposit a now).2
  | .withdrawN a now => (atm.withdraw a now).2
  | .depositS s now => (atm.depositStr s now).2
  | .withdrawS s now => (atm.withdrawStr s now).2

/-- Executes a sequence of ledger calls. -/
def runOps (atm : ATMSimulator) : List Op → ATMSimulator
  | [] => atm
  | op :: ops => runOps (runOp atm op) ops


/-- A dyadic rational `m * 2 ^ e`.  Python floats are IEEE-754 binary64
values, i.e. dyadic rationals with a 53-bit significand; this refinement of
the idealized `PyNum` arithmetic models the rounding that `+` and `-`
actually perform on finite values of ordinary magnitude (no overflow or
subnormals, which do not arise here). -/
structure Dyadic where
  m : ℤ
  e : ℤ
deriving DecidableEq

namespace Dyadic

/-- The rational value of a dyadic. -/
def toRat (a : Dyadic) : ℚ := (a.m : ℚ) * 2 ^ a.e

/-- Exact addition of dyadics (align exponents, add mantissas). -/
def dAdd (a b : Dyadic) : Dyadic :=
  if a.e ≤ b.e then ⟨a.m + b.m * 2 ^ (b.e - a.e).toNat, a.e⟩
  else ⟨a.m * 2 ^ (a.e - b.e).toNat + b.m, b.e⟩

/-- Exact negation. -/
def dNeg (a : Dyadic) : Dyadic := ⟨-a.m, a.e⟩

/-- Exact subtraction. -/
def dSub (a b : Dyadic) : Dyadic := dAdd a (dNeg b)

/-- Value comparison `a <= b`. -/
def dLe (a b : Dyadic) : Bool := (dSub a b).m ≤ 0

/-- Value comparison `a < b`. -/
def dLt (a b : Dyadic) : Bool := (dSub a b).m < 0

/-- How many low bits must be dropped from the positive mantissa `x` to
leave at most 53 bits (fuelled search; `roundPosM` passes fuel that is
always sufficient, see `Dyadic.excessBits_fuel_ok`). -/
def excessBits : ℕ → ℤ → ℕ → ℕ
  | 0, _, s => s
  | fuel + 1, x, s => if x < 2 ^ (53 + s) then s else excessBits fuel x (s + 1)

/-- Rounds `m * 2 ^ e` with `m > 0` to 53 significant bits, round to
nearest, ties to even: the binary64 rounding of a positive value. -/
def roundPosM (m : ℤ) (e : ℤ) : Dyadic :=
  let s := excessBits (m.natAbs + 54) m 0
  if s = 0 then ⟨m, e⟩
  else
    let q := m / 2 ^ s
    let r := m % 2 ^ s
    let half : ℤ := 2 ^ (s - 1)
    let q' := if r < half then q else if half < r then q + 1
              else if q % 2 = 0 then q else q + 1
    ⟨q', e + s⟩

/-- Binary64 rounding (round to nearest, ties to even) of a dyadic. -/
def roundF64 (x : Dyadic) : Dyadic :=
  if x.m = 0 then ⟨0, 0⟩
  else if 0 < x.m then roundPosM x.m x.e
  else dNeg (roundPosM (-x.m) x.e)

/-- Python float addition on finite values: exact sum, then binary64
rounding. -/
def fadd (a b : Dyadic) : Dyadic := roundF64 (dAdd a b)

/-- Python float subtraction on finite values. -/
def fsub (a b : Dyadic) : Dyadic := roundF64 (dSub a b)

/-- Scales the fraction `a / b` (both positive) up by powers of two until
the integer quotient reaches 52 bits. -/
def scaleUp : ℕ → ℤ → ℤ → ℤ → ℤ × ℤ
  | 0, a, _, e => (a, e)
  | fuel + 1, a, b, e =>
    if a / b < 2 ^ 52 then scaleUp fuel (2 * a) b (e - 1) else (a, e)

/-- Scales the fraction `a / b` (both positive) down by powers of two until
the integer quotient fits in 53 bits. -/
def scaleDown : ℕ → ℤ → ℤ → ℤ → ℤ × ℤ
  | 0, _, b, e => (b, e)
  | fuel + 1, a, b, e =>
    if 2 ^ 53 ≤ a / b then scaleDown fuel a (2 * b) (e + 1) else (b, e)

/-- The binary64 value nearest to the positive fraction `a / b` (round to
nearest, ties to even): what Python's decimal-literal parsing produces.
Used for the literals `0.10`, `0.20`, `0.30` of the precision scenario. -/
def roundQ53 (a b : ℤ) : Dyadic :=
  let p1 := scaleDown 3000 a b 0
  let p2 := scaleUp 3000 a p1.1 p1.2
  let q := p2.1 / p1.1
  let r := p2.1 % p1.1
  let q' := if 2 * r < p1.1 then q else if p1.1 < 2 * r then q + 1
            else if q % 2 = 0 then q else q + 1
  ⟨q', p2.2⟩

end Dyadic

/-- The balance evolution of the source's `deposit` on a finite float
balance and a finite float amount that passes validation: the float
addition of line 79 (`self._balance += amount`), with real binary64
rounding. -/
def depositF (balance amount : Dyadic) : Dyadic :=
  if Dyadic.dLe amount ⟨0, 0⟩ then balance else Dyadic.fadd balance amount

/-- The balance evolution of the source's `withdraw` on finite floats:
validation, funds check (line 102), then the float subtraction of
line 106 (`self._balance -= amount`). -/
def withdrawF (balance amount : Dyadic) : Dyadic :=
  if Dyadic.dLe amount ⟨0, 0⟩ then balance
  else if Dyadic.dLt balance amount then balance
  else Dyadic.fsub balance amount

/-- The binary64 value of the literal `0.10`. -/
def fl_0_10 : Dyadic := Dyadic.roundQ53 1 10

/-- The binary64 value of the literal `0.20`. -/
def fl_0_20 : Dyadic := Dyadic.roundQ53 2 10

/-- The binary64 value of the literal `0.30`. -/
def fl_0_30 : Dyadic := Dyadic.roundQ53 3 10

/-- The precision scenario of the spec: starting from balance `1000`,
deposit `0.10`, deposit `0.20`, withdraw `0.30`, with real binary64
float arithmetic. -/
def precisionCycle : Dyadic :=
  withdrawF (depositF (depositF ⟨1000, 0⟩ fl_0_10) fl_0_20) fl_0_30

/-- A transaction record of the binary64-level ledger: like `Transaction`,
with the amount and recorded (post-mutation) balance as float values. -/
structure FTransaction where
  type : String
  amount : Dyadic
  balance : Dyadic
  timestamp : String
deriving DecidableEq

/-- The `ATMSimulator` state with the balance and amounts at binary64
precision: the refinement of `ATMSimulator` in which line 79's `+=` and
line 106's `-=` round like real Python floats. -/
structure FATMSimulator where
  _balance : Dyadic
  _pin : String
  _max_attempts : ℕ
  _transaction_history : List FTransaction
deriving DecidableEq

/-- `ATMSimulator.deposit` (line 66-87) at binary64 precision: the
`amount <= 0` check, then `self._balance += amount` with real float
rounding, then the log entry with the new balance. -/
def fdeposit (atm : FATMSimulator) (amount : Dyadic) (now : String) :
    OpResult × FATMSimulator :=
  if Dyadic.dLe amount ⟨0, 0⟩ then (.invalidAmount, atm)
  else
    let b' := Dyadic.fadd atm._balance amount
    (.ok, ⟨b', atm._pin, atm._max_attempts,
      atm._transaction_history ++ [⟨"deposit", amount, b', now⟩]⟩)

/-- `ATMSimulator.withdraw` (line 89-114) at binary64 precision: the
`amount <= 0` check, the `amount > self._balance` check, then
`self._balance -= amount` with real float rounding, then the log entry. -/
def fwithdraw (atm : FATMSimulator) (amount : Dyadic) (now : String) :
    OpResult × FATMSimulator :=
  if Dyadic.dLe amount ⟨0, 0⟩ then (.invalidAmount, atm)
  else if Dyadic.dLt atm._balance amount then (.insufficientFunds, atm)
  else
    let b' := Dyadic.fsub atm._balance amount
    (.ok, ⟨b', atm._pin, atm._max_attempts,
      atm._transaction_history ++ [⟨"withdrawal", amount, b', now⟩]⟩)

/-- Executes a sequence of deposits (each with its timestamp) on the
binary64-level ledger. -/
def fdepositSeq (atm : FATMSimulator) : List (Dyadic × String) → FATMSimulator
  | [] => atm
  | (d, now) :: ds => fdepositSeq (fdeposit atm d now).2 ds

/-- The float-rounded running balances `fl(b+d1), fl(fl(b+d1)+d2), ...` of
a deposit sequence: what the program's balance actually passes through. -/
def faddList (b : Dyadic) : List Dyadic → List Dyadic
  | [] => []
  | d :: ds => Dyadic.fadd b d :: faddList (Dyadic.fadd b d) ds

/-- The float-rounded accumulation of a deposit sequence: the final value
of the program's balance. -/
def faddFold (b : Dyadic) : List Dyadic → Dyadic
  | [] => b
  | d :: ds => faddFold (Dyadic.fadd b d) ds

/-- The transactions a deposit sequence appends on the binary64-level
ledger, starting from balance `b`. -/
def fdepositTxns (b : Dyadic) : List (Dyadic × String) → List FTransaction
  | [] => []
  | (d, now) :: ds =>
    ⟨"deposit", d, Dyadic.fadd b d, now⟩ :: fdepositTxns (Dyadic.fadd b d) ds

theorem PyNum.zero_eq : (0 : PyNum) = PyNum.finite 0 := rfl

/-- C2 counterexample: `deposit(float('inf'))` on a fresh account is not
rejected with the invalid-amount error: it succeeds (the source only checks
`amount <= 0`), sets the balance to `inf` and appends a transaction. -/
theorem C2_counterexample :
    ((ATMSimulator.mk0 (.finite 1000) "1234" 3).deposit PyNum.inf "t").1
        = OpResult.ok ∧
    ((ATMSimulator.mk0 (.finite 1000) "1234" 3).deposit PyNum.inf
        "t").2._balance = PyNum.inf ∧
    ((ATMSimulator.mk0 (.finite 1000) "1234" 3).deposit PyNum.inf
        "t").2._transaction_history.length = 1 := by
  refine ⟨rfl, rfl, rfl⟩

/-- C2 (amended): every amount that compares `<= 0` — zero, negative
numbers and `-inf` — makes both `deposit` and `withdraw` fail on the
invalid-amount path with no transaction appended (in particular
`deposit(0)`, `deposit(-5)`, `withdraw(0)`, `withdraw(-1)`); but `inf` and
`nan` pass the `amount <= 0` validation: `deposit` accepts both, and
`withdraw` accepts `nan`. -/
theorem C2_nonpositive_rejected (atm : ATMSimulator) (amount : PyNum)
    (now : String) (h : PyNum.le amount 0 = true) :
    atm.deposit amount now = (.invalidAmount, atm) ∧
    atm.withdraw amount now = (.invalidAmount, atm) ∧
    (PyNum.le PyNum.inf 0 = false ∧ PyNum.le PyNum.nan 0 = false) ∧
    (atm.deposit PyNum.nan now).1 = .ok ∧
    (atm.withdraw PyNum.nan now).1 = .ok := by
  refine ⟨by simp [ATMSimulator.deposit, h], by simp [ATMSimulator.withdraw, h],
    ⟨rfl, rfl⟩, by simp [ATMSimulator.deposit, PyNum.le], ?_⟩
  simp [ATMSimulator.withdraw, PyNum.le, PyNum.lt]
  cases atm._balance <;> simp [PyNum.lt]

theorem C2_nonpositive_rejected_witness :
    (ATMSimulator.mk0 (.finite 1000) "1234" 3).deposit (.finite 0) "t"
        = (.invalidAmount, ATMSimulator.mk0 (.finite 1000) "1234" 3) ∧
    (ATMSimulator.mk0 (.finite 1000) "1234" 3).withdraw (.finite (-1)) "t"
        = (.invalidAmount, ATMSimulator.mk0 (.finite 1000) "1234" 3) :=
  ⟨(C2_nonpositive_rejected _ (.finite 0) "t" (by decide)).1,
   (C2_nonpositive_rejected _ (.finite (-1)) "t" (by decide)).2.1⟩

/-- C5: whenever `deposit` or `withdraw` (called with a number or with a
raw string) does not take the success path, the whole state — balance and
transaction log — is returned unchanged: validation happens strictly
before any mutation. -/
theorem C5_rejected_ops_atomic (atm : ATMSimulator) (amount : PyNum)
    (s now : String) :
    ((atm.deposit amount now).1 ≠ .ok → (atm.deposit amount now).2 = atm) ∧
    ((atm.withdraw amount now).1 ≠ .ok → (atm.withdraw amount now).2 = atm) ∧
    ((atm.depositStr s now).1 ≠ .ok → (atm.depositStr s now).2 = atm) ∧
    ((atm.withdrawStr s now).1 ≠ .ok → (atm.withdrawStr s now).2 = atm) := by
  have hd : ∀ a, ((atm.deposit a now).1 ≠ .ok → (atm.deposit a now).2 = atm) := by
    intro a
    unfold ATMSimulator.deposit
    split <;> simp
  have hw : ∀ a, ((atm.withdraw a now).1 ≠ .ok → (atm.withdraw a now).2 = atm) := by
    intro a
    unfold ATMSimulator.withdraw
    split
    · simp
    · split <;> simp
  refine ⟨hd amount, hw amount, ?_, ?_⟩
  · unfold ATMSimulator.depositStr
    cases pyFloatOfString s with
    | none => simp
    | some v => exact hd v
  · unfold ATMSimulator.withdrawStr
    cases pyFloatOfString s with
    | none => simp
    | some v => exact hw v

theorem C5_rejected_ops_atomic_witness :
    ((ATMSimulator.mk0 (.finite 1000) "1234" 3).withdraw (.finite 2000)
        "t").2 = ATMSimulator.mk0 (.finite 1000) "1234" 3 :=
  (C5_rejected_ops_atomic (ATMSimulator.mk0 (.finite 1000) "1234" 3)
    (.finite 2000) "x" "t").2.1 (by decide)

/-- C7: with `max_attempts = 0` the `while attempts < self._max_attempts`
loop is never entered, so `authenticate` exits on the locked-out path
immediately, with zero `getpass` prompts issued and zero attempts
consumed. -/
theorem C7_zero_attempts_locked (atm : ATMSimulator)
    (inputs : ℕ → AuthInput) (hm : atm._max_attempts = 0) :
    atm.authenticate inputs = (.lockedOut, 0, 0) := by
  unfold ATMSimulator.authenticate
  rw [hm]
  rfl

theorem C7_zero_attempts_locked_witness :
    (ATMSimulator.mk0 (.finite 1000) "1234" 0).authenticate
        (fun _ => .cred "1234") = (.lockedOut, 0, 0) :=
  C7_zero_attempts_locked (ATMSimulator.mk0 (.finite 1000) "1234" 0)
    (fun _ => .cred "1234") rfl

theorem PyNum.add_isNeg (b a : PyNum) (hb : b.isNeg = false)
    (ha : PyNum.le a 0 = false) : (b.add a).isNeg = false := by
  cases b <;> cases a <;>
    simp_all [PyNum.isNeg, PyNum.le, PyNum.add, PyNum.zero_eq, not_le,
      not_lt] <;>
    linarith

theorem PyNum.sub_isNeg (b a : PyNum) (hb : b.isNeg = false)
    (ha : PyNum.le a 0 = false) (hlt : PyNum.lt b a = false) :
    (b.sub a).isNeg = false := by
  cases b <;> cases a <;>
    simp_all [PyNum.isNeg, PyNum.le, PyNum.lt, PyNum.sub, PyNum.zero_eq,
      not_le, not_lt]

theorem deposit_isNeg (atm : ATMSimulator) (a : PyNum) (now : String)
    (h : atm._balance.isNeg = false) :
    ((atm.deposit a now).2)._balance.isNeg = false := by
  cases hle : PyNum.le a 0 with
  | true => simp [ATMSimulator.deposit, hle, h]
  | false =>
    simp [ATMSimulator.deposit, hle, ATMSimulator._log_transaction]
    exact PyNum.add_isNeg _ _ h hle

theorem withdraw_isNeg (atm : ATMSimulator) (a : PyNum) (now : String)
    (h : atm._balance.isNeg = false) :
    ((atm.withdraw a now).2)._balance.isNeg = false := by
  cases hle : PyNum.le a 0 with
  | true => simp [ATMSimulator.withdraw, hle, h]
  | false =>
    cases hlt : PyNum.lt atm._balance a with
    | true => simp [ATMSimulator.withdraw, hle, hlt, h]
    | false =>
      simp [ATMSimulator.withdraw, hle, hlt, ATMSimulator._log_transaction]
      exact PyNum.sub_isNeg _ _ h hle hlt

theorem runOp_isNeg (atm : ATMSimulator) (op : Op)
    (h : atm._balance.isNeg = false) :
    (runOp atm op)._balance.isNeg = false := by
  cases op with
  | depositN a now => exact deposit_isNeg atm a now h
  | withdrawN a now => exact withdraw_isNeg atm a now h
  | depositS s now =>
    show ((atm.depositStr s now).2)._balance.isNeg = false
    unfold ATMSimulator.depositStr
    cases pyFloatOfString s with
    | none => exact h
    | some v => exact deposit_isNeg atm v now h
  | withdrawS s now =>
    show ((atm.withdrawStr s now).2)._balance.isNeg = false
    unfold ATMSimulator.withdrawStr
    cases pyFloatOfString s with
    | none => exact h
    | some v => exact withdraw_isNeg atm v now h

theorem runOps_isNeg (ops : List Op) :
    ∀ atm : ATMSimulator, atm._balance.isNeg = false →
      (runOps atm ops)._balance.isNeg = false := by
  induction ops with
  | nil => intro atm h; exact h
  | cons op ops ih => intro atm h; exact ih _ (runOp_isNeg atm op h)

/-- C4: balance non-negativity is an invariant: if the balance is not a
negative value, then after any sequence of `deposit`/`withdraw` calls —
successful or failed, with any numeric or string arguments — it is still
not a negative value. -/
theorem C4_balance_never_negative (atm : ATMSimulator) (ops : List Op)
    (h : atm._balance.isNeg = false) :
    (runOps atm ops)._balance.isNeg = false :=
  runOps_isNeg ops atm h

theorem C4_balance_never_negative_witness :
    (runOps (ATMSimulator.mk0 (.finite 1000) "1234" 3)
        [.withdrawN (.finite 2000) "t1", .depositN .nan "t2",
          .withdrawS "abc" "t3"])._balance.isNeg = false :=
  C4_balance_never_negative (ATMSimulator.mk0 (.finite 1000) "1234" 3)
    [.withdrawN (.finite 2000) "t1", .depositN .nan "t2",
      .withdrawS "abc" "t3"] (by decide)

theorem authGo_first_match (pin : String) (inputs : ℕ → AuthInput) :
    ∀ (k remaining idx attempts : ℕ), k < remaining →
      (∀ i, i < k → ∃ c, inputs (idx + i) = .cred c ∧ c ≠ pin) →
      inputs (idx + k) = .cred pin →
      authGo pin inputs remaining idx attempts =
        (.authenticated, idx + k + 1, attempts + k) := by
  intro k
  induction k with
  | zero =>
    intro remaining idx attempts hk _ hmatch
    obtain ⟨r, rfl⟩ : ∃ r, remaining = r + 1 := ⟨remaining - 1, by omega⟩
    simp only [Nat.add_zero] at hmatch
    simp [authGo, hmatch]
  | succ k ih =>
    intro remaining idx attempts hk hw hmatch
    obtain ⟨r, rfl⟩ : ∃ r, remaining = r + 1 := ⟨remaining - 1, by omega⟩
    obtain ⟨c, hc, hcne⟩ := hw 0 (by omega)
    simp only [Nat.add_zero] at hc
    have hshift : ∀ i, i < k →
        ∃ c', inputs (idx + 1 + i) = .cred c' ∧ c' ≠ pin := by
      intro i hi
      obtain ⟨c', hc', hne'⟩ := hw (i + 1) (by omega)
      refine ⟨c', ?_, hne'⟩
      rw [show idx + 1 + i = idx + (i + 1) by omega]
      exact hc'
    have hm2 : inputs (idx + 1 + k) = .cred pin := by
      rw [show idx + 1 + k = idx + (k + 1) by omega]
      exact hmatch
    have hrec := ih r (idx + 1) (attempts + 1) (by omega) hshift hm2
    simp only [authGo, hc, hcne, if_false]
    rw [hrec]
    simp only [Prod.mk.injEq]
    exact ⟨by simp, by omega, by omega⟩

theorem authGo_all_wrong (pin : String) (inputs : ℕ → AuthInput) :
    ∀ (remaining idx attempts : ℕ),
      (∀ i, i < remaining → ∃ c, inputs (idx + i) = .cred c ∧ c ≠ pin) →
      authGo pin inputs remaining idx attempts =
        (.lockedOut, idx + remaining, attempts + remaining) := by
  intro remaining
  induction remaining with
  | zero => intro idx attempts _; simp [authGo]
  | succ r ih =>
    intro idx attempts hw
    obtain ⟨c, hc, hcne⟩ := hw 0 (by omega)
    simp only [Nat.add_zero] at hc
    have hshift : ∀ i, i < r →
        ∃ c', inputs (idx + 1 + i) = .cred c' ∧ c' ≠ pin := by
      intro i hi
      obtain ⟨c', hc', hne'⟩ := hw (i + 1) (by omega)
      refine ⟨c', ?_, hne'⟩
      rw [show idx + 1 + i = idx + (i + 1) by omega]
      exact hc'
    have hrec := ih (idx + 1) (attempts + 1) hshift
    simp only [authGo, hc, hcne, if_false]
    rw [hrec]
    simp only [Prod.mk.injEq]
    exact ⟨by simp, by omega, by omega⟩

theorem authGo_interrupt (pin : String) (inputs : ℕ → AuthInput) :
    ∀ (k remaining idx attempts : ℕ), k < remaining →
      (∀ i, i < k → ∃ c, inputs (idx + i) = .cred c ∧ c ≠ pin) →
      inputs (idx + k) = .interrupt →
      authGo pin inputs remaining idx attempts =
        (.cancelled, idx + k + 1, attempts + k) := by
  intro k
  induction k with
  | zero =>
    intro remaining idx attempts hk _ hint
    obtain ⟨r, rfl⟩ : ∃ r, remaining = r + 1 := ⟨remaining - 1, by omega⟩
    simp only [Nat.add_zero] at hint
    simp [authGo, hint]
  | succ k ih =>
    intro remaining idx attempts hk hw hint
    obtain ⟨r, rfl⟩ : ∃ r, remaining = r + 1 := ⟨remaining - 1, by omega⟩
    obtain ⟨c, hc, hcne⟩ := hw 0 (by omega)
    simp only [Nat.add_zero] at hc
    have hshift : ∀ i, i < k →
        ∃ c', inputs (idx + 1 + i) = .cred c' ∧ c' ≠ pin := by
      intro i hi
      obtain ⟨c', hc', hne'⟩ := hw (i + 1) (by omega)
      refine ⟨c', ?_, hne'⟩
      rw [show idx + 1 + i = idx + (i + 1) by omega]
      exact hc'
    have hm2 : inputs (idx + 1 + k) = .interrupt := by
      rw [show idx + 1 + k = idx + (k + 1) by omega]
      exact hint
    have hrec := ih r (idx + 1) (attempts + 1) (by omega) hshift hm2
    simp only [authGo, hc, hcne, if_false]
    rw [hrec]
    simp only [Prod.mk.injEq]
    exact ⟨by simp, by omega, by omega⟩

/-- C6: with `max_attempts = 3`, `authenticate` exits on the authenticated
path as soon as a presented credential equals the stored PIN — after
exactly `k + 1` prompts when the match is the `(k+1)`-th credential,
regardless of remaining attempts and with no further prompts — and exits
on the locked-out path after three consecutive non-matching credentials,
having issued exactly three prompts. -/
theorem C6_authenticate_max3 (atm : ATMSimulator) (inputs : ℕ → AuthInput)
    (hm : atm._max_attempts = 3) :
    (∀ k, k < 3 →
      (∀ i, i < k → ∃ c, inputs i = .cred c ∧ c ≠ atm._pin) →
      inputs k = .cred atm._pin →
      atm.authenticate inputs = (.authenticated, k + 1, k)) ∧
    ((∀ i, i < 3 → ∃ c, inputs i = .cred c ∧ c ≠ atm._pin) →
      atm.authenticate inputs = (.lockedOut, 3, 3)) := by
  constructor
  · intro k hk hw hmatch
    unfold ATMSimulator.authenticate
    rw [hm]
    have h := authGo_first_match atm._pin inputs k 3 0 0 hk
      (fun i hi => by simpa using hw i hi) (by simpa using hmatch)
    simpa using h
  · intro hw
    unfold ATMSimulator.authenticate
    rw [hm]
    have h := authGo_all_wrong atm._pin inputs 3 0 0
      (fun i hi => by simpa using hw i hi)
    simpa using h

theorem C6_authenticate_max3_witness :
    (ATMSimulator.mk0 (.finite 1000) "1234" 3).authenticate
        (fun i => if i = 0 then .cred "0000" else .cred "1234")
      = (.authenticated, 2, 1) :=
  (C6_authenticate_max3 (ATMSimulator.mk0 (.finite 1000) "1234" 3)
      (fun i => if i = 0 then .cred "0000" else .cred "1234") rfl).1 1
    (by omega)
    (by
      intro i hi
      have hi0 : i = 0 := by omega
      subst hi0
      exact ⟨"0000", rfl, by decide⟩)
    rfl

/-- C9 counterexample: on interruption `authenticate` takes the cancelled
exit path, but the value it returns to the caller (`False`) is the very
value returned on lockout: by return value, cancellation is not
distinguishable from `LockedOut`. -/
theorem C9_counterexample :
    ((ATMSimulator.mk0 (.finite 1000) "1234" 3).authenticate
        (fun _ => .interrupt)).1 = .cancelled ∧
    ((ATMSimulator.mk0 (.finite 1000) "1234" 3).authenticate
        (fun _ => .cred "0000")).1 = .lockedOut ∧
    ((ATMSimulator.mk0 (.finite 1000) "1234" 3).authenticate
        (fun _ => .interrupt)).1.toBool
      = ((ATMSimulator.mk0 (.finite 1000) "1234" 3).authenticate
        (fun _ => .cred "0000")).1.toBool :=
  ⟨rfl, rfl, rfl⟩

/-- C9 (amended): if the collaborator interrupts at the `(k+1)`-th prompt
after `k` wrong credentials, `authenticate` returns at once on the
cancelled exit path (whose printed message differs from the wrong-PIN and
lockout messages) without consuming an attempt — the `attempts` counter is
still `k` — but the boolean it returns equals the one returned on
lockout. -/
theorem C9_cancelled_no_attempt (atm : ATMSimulator)
    (inputs : ℕ → AuthInput) (k : ℕ) (hk : k < atm._max_attempts)
    (hw : ∀ i, i < k → ∃ c, inputs i = .cred c ∧ c ≠ atm._pin)
    (hint : inputs k = .interrupt) :
    atm.authenticate inputs = (.cancelled, k + 1, k) ∧
    AuthOutcome.cancelled.toBool = AuthOutcome.lockedOut.toBool := by
  constructor
  · unfold ATMSimulator.authenticate
    have h := authGo_interrupt atm._pin inputs k atm._max_attempts 0 0 hk
      (fun i hi => by simpa using hw i hi) (by simpa using hint)
    simpa using h
  · rfl

theorem C9_cancelled_no_attempt_witness :
    (ATMSimulator.mk0 (.finite 1000) "1234" 3).authenticate
        (fun i => if i = 0 then .cred "0000" else .interrupt)
      = (.cancelled, 2, 1) :=
  (C9_cancelled_no_attempt (ATMSimulator.mk0 (.finite 1000) "1234" 3)
      (fun i => if i = 0 then .cred "0000" else .interrupt) 1
    (by decide)
    (by
      intro i hi
      have hi0 : i = 0 := by omega
      subst hi0
      exact ⟨"0000", rfl, by decide⟩)
    rfl).1

/-- C10: the string-level `deposit`/`withdraw` interface is total: a string
the modelled `float()` parses is treated as the parsed numeric value (for
example `" 1e3 "`, whitespace and scientific notation included, is treated
as `1000`), and a string it cannot parse makes the operation return the
failure of the `except ValueError` arm with the state unchanged. -/
theorem C10_string_interface (s : String) (atm : ATMSimulator)
    (now : String) :
    (pyFloatOfString s = none →
      atm.depositStr s now = (.parseError, atm) ∧
      atm.withdrawStr s now = (.parseError, atm)) ∧
    (∀ v, pyFloatOfString s = some v →
      atm.depositStr s now = atm.deposit v now ∧
      atm.withdrawStr s now = atm.withdraw v now) ∧
    pyFloatOfString " 1e3 " = some (.finite 1000) ∧
    pyFloatOfString "abc" = none := by
  refine ⟨?_, ?_, ?_, rfl⟩
  · intro h
    constructor <;> simp [ATMSimulator.depositStr, ATMSimulator.withdrawStr, h]
  · intro v h
    constructor <;> simp [ATMSimulator.depositStr, ATMSimulator.withdrawStr, h]
  · have h : pyFloatOfString " 1e3 " = some (.finite (decValue 1 3)) := rfl
    rw [h]
    norm_num [decValue, show Int.toNat 3 = 3 from rfl]

theorem C10_string_interface_witness :
    (ATMSimulator.mk0 (.finite 1000) "1234" 3).depositStr "abc" "t"
      = (.parseError, ATMSimulator.mk0 (.finite 1000) "1234" 3) :=
  ((C10_string_interface "abc" (ATMSimulator.mk0 (.finite 1000) "1234" 3)
    "t").1 rfl).1

set_option maxRecDepth 8000

/-- C8 counterexample: with the binary64 arithmetic that Python floats
actually perform, the float nearest `0.10` plus the float nearest `0.20`
is not the float nearest `0.30`, and depositing `0.10` and `0.20` and then
withdrawing `0.30` from balance `1000` does not leave the balance exactly
unchanged. -/
theorem C8_counterexample :
    (Dyadic.dSub (Dyadic.fadd fl_0_10 fl_0_20) fl_0_30).m ≠ 0 ∧
    (Dyadic.dSub precisionCycle ⟨1000, 0⟩).m ≠ 0 :=
  ⟨by decide, by decide⟩

/-- C8 (amended): amounts are binary64 floats (Python `float`), not a
fixed-point or decimal representation: the floats nearest `0.10`, `0.20`
and `0.30` are the dyadics below, `fl(0.10) + fl(0.20)` exceeds `fl(0.30)`
by exactly `2 ^ (-54)`, and the deposit `0.10`, deposit `0.20`,
withdraw `0.30` cycle started at balance `1000` leaves the balance at
`1000 + 2 ^ (-43)`, a representation error rather than exact
round-tripping. -/
theorem C8_binary64_representation :
    fl_0_10 = ⟨7205759403792794, -56⟩ ∧
    fl_0_20 = ⟨7205759403792794, -55⟩ ∧
    fl_0_30 = ⟨5404319552844595, -54⟩ ∧
    Dyadic.toRat (Dyadic.dSub (Dyadic.fadd fl_0_10 fl_0_20) fl_0_30)
      = 1 / 2 ^ 54 ∧
    Dyadic.toRat (Dyadic.dSub precisionCycle ⟨1000, 0⟩) = 1 / 2 ^ 43 := by
  refine ⟨by decide, by decide, by decide, ?_, ?_⟩
  · have h : Dyadic.dSub (Dyadic.fadd fl_0_10 fl_0_20) fl_0_30 = ⟨1, -54⟩ :=
      by decide
    rw [h]
    norm_num [Dyadic.toRat, zpow_neg]
  · have h : Dyadic.dSub precisionCycle ⟨1000, 0⟩ = ⟨1, -43⟩ := by decide
    rw [h]
    norm_num [Dyadic.toRat, zpow_neg]

theorem Dyadic.two_zpow_pos (e : ℤ) : (0:ℚ) < 2 ^ e := zpow_pos (by norm_num) e

theorem Dyadic.dNeg_toRat (a : Dyadic) : (dNeg a).toRat = -a.toRat := by
  simp [dNeg, toRat]

theorem Dyadic.dAdd_toRat (a b : Dyadic) :
    (dAdd a b).toRat = a.toRat + b.toRat := by
  unfold dAdd
  split
  · rename_i h
    have h2 : ((b.e - a.e).toNat : ℤ) = b.e - a.e := Int.toNat_of_nonneg (by omega)
    simp only [toRat]
    push_cast
    rw [← zpow_natCast (2:ℚ) (b.e - a.e).toNat, h2]
    rw [add_mul, mul_assoc, ← zpow_add₀ (by norm_num : (2:ℚ) ≠ 0)]
    ring_nf
  · rename_i h
    have h2 : ((a.e - b.e).toNat : ℤ) = a.e - b.e := Int.toNat_of_nonneg (by omega)
    simp only [toRat]
    push_cast
    rw [← zpow_natCast (2:ℚ) (a.e - b.e).toNat, h2]
    rw [add_mul, mul_assoc, ← zpow_add₀ (by norm_num : (2:ℚ) ≠ 0)]
    ring_nf

theorem Dyadic.dSub_toRat (a b : Dyadic) :
    (dSub a b).toRat = a.toRat - b.toRat := by
  rw [dSub, dAdd_toRat, dNeg_toRat]
  ring

theorem Dyadic.toRat_nonneg_iff (a : Dyadic) : 0 ≤ a.toRat ↔ 0 ≤ a.m := by
  rw [toRat]
  constructor
  · intro h
    by_contra hm
    push_neg at hm
    have : (a.m : ℚ) * 2 ^ a.e < 0 :=
      mul_neg_of_neg_of_pos (by exact_mod_cast hm) (two_zpow_pos a.e)
    linarith
  · intro h
    exact mul_nonneg (by exact_mod_cast h) (le_of_lt (two_zpow_pos a.e))

theorem Dyadic.toRat_pos_iff (a : Dyadic) : 0 < a.toRat ↔ 0 < a.m := by
  rw [toRat]
  constructor
  · intro h
    by_contra hm
    push_neg at hm
    have : (a.m : ℚ) * 2 ^ a.e ≤ 0 :=
      mul_nonpos_of_nonpos_of_nonneg (by exact_mod_cast hm)
        (le_of_lt (two_zpow_pos a.e))
    linarith
  · intro h
    exact mul_pos (by exact_mod_cast h) (two_zpow_pos a.e)

theorem Dyadic.toRat_eq_zero_iff (a : Dyadic) : a.toRat = 0 ↔ a.m = 0 := by
  rw [toRat]
  constructor
  · intro h
    rcases mul_eq_zero.1 h with h | h
    · exact_mod_cast h
    · exact absurd h (ne_of_gt (two_zpow_pos a.e))
  · intro h
    rw [h]
    simp

theorem Dyadic.toRat_nonpos_iff (a : Dyadic) : a.toRat ≤ 0 ↔ a.m ≤ 0 := by
  rw [← not_lt, ← not_lt, toRat_pos_iff]

theorem Dyadic.toRat_neg_iff (a : Dyadic) : a.toRat < 0 ↔ a.m < 0 := by
  rw [← not_le, ← not_le, toRat_nonneg_iff]

theorem Dyadic.dLe_iff (a b : Dyadic) :
    dLe a b = true ↔ a.toRat ≤ b.toRat := by
  rw [dLe, decide_eq_true_eq, ← toRat_nonpos_iff, dSub_toRat, sub_nonpos]

theorem Dyadic.dLt_iff (a b : Dyadic) :
    dLt a b = true ↔ a.toRat < b.toRat := by
  rw [dLt, decide_eq_true_eq, ← toRat_neg_iff, dSub_toRat, sub_neg]

theorem Dyadic.dLe_zero_false_of_pos (a : Dyadic) (ha : 0 < a.toRat) :
    dLe a ⟨0, 0⟩ = false := by
  rw [Bool.eq_false_iff]
  intro h
  rw [dLe_iff] at h
  have h0 : (Dyadic.mk 0 0).toRat = 0 := by simp [toRat]
  rw [h0] at h
  linarith

theorem Dyadic.dLt_false_of_le (a b : Dyadic) (h : a.toRat ≤ b.toRat) :
    dLt b a = false := by
  rw [Bool.eq_false_iff]
  intro hlt
  rw [dLt_iff] at hlt
  linarith

theorem Dyadic.excessBits_spec (fuel : ℕ) :
    ∀ (x : ℤ) (s : ℕ), x < 2 ^ (53 + s + fuel) →
      x < 2 ^ (53 + excessBits fuel x s) ∧
      (excessBits fuel x s = s ∨ 2 ^ (52 + excessBits fuel x s) ≤ x) := by
  induction fuel with
  | zero =>
    intro x s h
    exact ⟨by simpa using h, Or.inl rfl⟩
  | succ fuel ih =>
    intro x s h
    rw [excessBits]
    split
    · rename_i hx
      exact ⟨hx, Or.inl rfl⟩
    · rename_i hx
      push_neg at hx
      have hih := ih x (s + 1)
        (by rw [show 53 + (s + 1) + fuel = 53 + s + (fuel + 1) by omega]; exact h)
      refine ⟨hih.1, ?_⟩
      rcases hih.2 with h1 | h2
      · right
        rw [h1, show 52 + (s + 1) = 53 + s by omega]
        exact hx
      · right
        exact h2

theorem Dyadic.excessBits_fuel_ok (m : ℤ) (hm : 0 < m) :
    m < 2 ^ (53 + 0 + (m.natAbs + 54)) := by
  have h1 : m = (m.natAbs : ℤ) := by omega
  have h2 : (m.natAbs : ℤ) < 2 ^ m.natAbs := by
    exact_mod_cast Nat.lt_two_pow m.natAbs
  have h3 : (2:ℤ) ^ m.natAbs ≤ 2 ^ (53 + 0 + (m.natAbs + 54)) :=
    pow_le_pow_right₀ (by norm_num) (by omega)
  omega

theorem Dyadic.roundPosM_ge (m e : ℤ) (hm : 0 < m) (b : Dyadic)
    (hb53 : b.m ≤ 2 ^ 53)
    (hlt : b.toRat < (m : ℚ) * 2 ^ e) :
    b.toRat ≤ (roundPosM m e).toRat := by
  have hspec := excessBits_spec (m.natAbs + 54) m 0 (excessBits_fuel_ok m hm)
  set s := excessBits (m.natAbs + 54) m 0 with hs_def
  by_cases hs : s = 0
  · have hout : roundPosM m e = ⟨m, e⟩ := by
      rw [roundPosM, ← hs_def, if_pos hs]
    rw [hout]
    exact le_of_lt hlt
  · have hs52 : (2:ℤ) ^ (52 + s) ≤ m := by
      rcases hspec.2 with h | h
      · exact absurd h hs
      · exact h
    have hps : (0:ℤ) < 2 ^ s := by positivity
    set q : ℤ := m / 2 ^ s with hq_def
    have houte : (roundPosM m e).e = e + (s:ℤ) := by
      rw [roundPosM, ← hs_def, if_neg hs]
    have houtm : q ≤ (roundPosM m e).m ∧ (roundPosM m e).m ≤ q + 1 := by
      rw [roundPosM, ← hs_def, if_neg hs]
      dsimp only
      constructor <;> split_ifs <;> omega
    have hq52 : (2:ℤ) ^ 52 ≤ q := by
      rw [hq_def]
      rw [Int.le_ediv_iff_mul_le hps]
      calc (2:ℤ) ^ 52 * 2 ^ s = 2 ^ (52 + s) := by rw [pow_add]
      _ ≤ m := hs52
    have hmq : m < (q + 1) * 2 ^ s := by
      have h1 := Int.ediv_add_emod m (2 ^ s)
      have h2 := Int.emod_lt_of_pos m hps
      have h3 : (q + 1) * 2 ^ s = 2 ^ s * q + 2 ^ s := by ring
      rw [hq_def] at h3 ⊢
      omega
    have hG : (0:ℚ) < 2 ^ (e + (s:ℤ)) := two_zpow_pos _
    have hGsplit : (2:ℚ) ^ (e + (s:ℤ)) = 2 ^ e * 2 ^ (s:ℤ) := by
      rw [zpow_add₀ (by norm_num : (2:ℚ) ≠ 0)]
    have hxlt : (m:ℚ) * 2 ^ e < ((q:ℚ) + 1) * 2 ^ (e + (s:ℤ)) := by
      have h1 : (m:ℚ) < ((q:ℚ) + 1) * 2 ^ (s:ℤ) := by
        rw [zpow_natCast]
        exact_mod_cast hmq
      calc (m:ℚ) * 2 ^ e < (((q:ℚ) + 1) * 2 ^ (s:ℤ)) * 2 ^ e :=
        mul_lt_mul_of_pos_right h1 (two_zpow_pos e)
      _ = ((q:ℚ) + 1) * 2 ^ (e + (s:ℤ)) := by rw [hGsplit]; ring
    by_cases hbq : b.toRat ≤ (q:ℚ) * 2 ^ (e + (s:ℤ))
    · have : (q:ℚ) ≤ ((roundPosM m e).m : ℚ) := by exact_mod_cast houtm.1
      calc b.toRat ≤ (q:ℚ) * 2 ^ (e + (s:ℤ)) := hbq
      _ ≤ ((roundPosM m e).m : ℚ) * 2 ^ (e + (s:ℤ)) :=
        mul_le_mul_of_nonneg_right this (le_of_lt hG)
      _ = (roundPosM m e).toRat := by rw [toRat, houte]
    · exfalso
      push_neg at hbq
      have hb52 : (2:ℚ) ^ (52:ℤ) * 2 ^ (e + (s:ℤ)) < b.toRat := by
        have : ((2:ℤ)^52 : ℚ) ≤ (q:ℚ) := by exact_mod_cast hq52
        have h2 : ((2:ℤ)^52 : ℚ) = (2:ℚ) ^ (52:ℤ) := by push_cast; norm_num
        nlinarith [hG]
      have hbe : e + (s:ℤ) ≤ b.e := by
        have h1 : b.toRat ≤ (2:ℚ) ^ (53:ℤ) * 2 ^ b.e := by
          rw [toRat]
          have : (b.m : ℚ) ≤ (2:ℚ) ^ (53:ℤ) := by
            have h3 : ((2:ℤ)^53 : ℚ) = (2:ℚ) ^ (53:ℤ) := by push_cast; norm_num
            rw [← h3]
            exact_mod_cast hb53
          exact mul_le_mul_of_nonneg_right this (le_of_lt (two_zpow_pos b.e))
        have hsplit52 : (2:ℚ) ^ ((52:ℤ) + (e + (s:ℤ)))
            = 2 ^ (52:ℤ) * 2 ^ (e + (s:ℤ)) :=
          zpow_add₀ (by norm_num : (2:ℚ) ≠ 0) _ _
        have hsplit53 : (2:ℚ) ^ ((53:ℤ) + b.e) = 2 ^ (53:ℤ) * 2 ^ b.e :=
          zpow_add₀ (by norm_num : (2:ℚ) ≠ 0) _ _
        have h2 : (2:ℚ) ^ ((52:ℤ) + (e + (s:ℤ))) < 2 ^ ((53:ℤ) + b.e) := by
          rw [hsplit52, hsplit53]
          linarith
        have h3 := (zpow_lt_zpow_iff_right₀ (by norm_num : (1:ℚ) < 2)).1 h2
        omega
      set k : ℤ := b.m * 2 ^ (b.e - (e + (s:ℤ))).toNat with hk_def
      have hk_val : b.toRat = (k:ℚ) * 2 ^ (e + (s:ℤ)) := by
        have ht : ((b.e - (e + (s:ℤ))).toNat : ℤ) = b.e - (e + (s:ℤ)) :=
          Int.toNat_of_nonneg (by omega)
        rw [toRat, hk_def]
        push_cast
        rw [← zpow_natCast (2:ℚ) (b.e - (e + (s:ℤ))).toNat, ht,
          mul_assoc, ← zpow_add₀ (by norm_num : (2:ℚ) ≠ 0)]
        ring_nf
      have hqk : q + 1 ≤ k := by
        have h1 : (q:ℚ) < (k:ℚ) := by
          have h2 := hbq
          rw [hk_val] at h2
          exact lt_of_mul_lt_mul_right h2 (le_of_lt hG)
        have : q < k := by exact_mod_cast h1
        omega
      have : ((q:ℚ) + 1) * 2 ^ (e + (s:ℤ)) ≤ b.toRat := by
        rw [hk_val]
        have : ((q:ℚ) + 1) ≤ (k:ℚ) := by exact_mod_cast hqk
        exact mul_le_mul_of_nonneg_right this (le_of_lt hG)
      linarith

theorem Dyadic.roundF64_ge (x b : Dyadic) (hb0 : 0 ≤ b.m)
    (hb53 : b.m ≤ 2 ^ 53) (hlt : b.toRat < x.toRat) :
    b.toRat ≤ (roundF64 x).toRat := by
  have hbr : 0 ≤ b.toRat := (toRat_nonneg_iff b).2 hb0
  have hx : 0 < x.m := (toRat_pos_iff x).1 (by linarith)
  rw [roundF64, if_neg (by omega), if_pos hx]
  exact roundPosM_ge x.m x.e hx b hb53 hlt

theorem Dyadic.roundPosM_bounds (m e : ℤ) (hm : 0 < m) :
    0 ≤ (roundPosM m e).m ∧ (roundPosM m e).m ≤ 2 ^ 53 := by
  have hspec := excessBits_spec (m.natAbs + 54) m 0 (excessBits_fuel_ok m hm)
  set s := excessBits (m.natAbs + 54) m 0 with hs_def
  by_cases hs : s = 0
  · have hout : roundPosM m e = ⟨m, e⟩ := by
      rw [roundPosM, ← hs_def, if_pos hs]
    have h1 := hspec.1
    rw [hs] at h1
    norm_num at h1
    rw [hout]
    exact ⟨by dsimp only; omega, by dsimp only; omega⟩
  · have hps : (0:ℤ) < 2 ^ s := by positivity
    have hq0 : 0 ≤ m / 2 ^ s := Int.ediv_nonneg (by omega) (by omega)
    have hq53 : m / 2 ^ s < 2 ^ 53 := by
      rw [Int.ediv_lt_iff_lt_mul hps]
      calc m < 2 ^ (53 + s) := hspec.1
      _ = 2 ^ 53 * 2 ^ s := by rw [pow_add]
    have hout : (roundPosM m e).m = m / 2 ^ s ∨
        (roundPosM m e).m = m / 2 ^ s + 1 := by
      rw [roundPosM, ← hs_def, if_neg hs]
      dsimp only
      split_ifs <;> omega
    rcases hout with h | h <;> rw [h] <;> omega

theorem Dyadic.roundF64_bounds (x : Dyadic) (hx : 0 < x.m) :
    0 ≤ (roundF64 x).m ∧ (roundF64 x).m ≤ 2 ^ 53 := by
  rw [roundF64, if_neg (by omega), if_pos hx]
  exact roundPosM_bounds x.m x.e hx

theorem Dyadic.fadd_toRat_ge (b d : Dyadic) (hb0 : 0 ≤ b.m)
    (hb53 : b.m ≤ 2 ^ 53) (hd : 0 < d.toRat) :
    b.toRat ≤ (fadd b d).toRat := by
  apply roundF64_ge _ _ hb0 hb53
  rw [dAdd_toRat]
  linarith

theorem Dyadic.fadd_bounds (b d : Dyadic) (hb0 : 0 ≤ b.m)
    (hd : 0 < d.toRat) : 0 ≤ (fadd b d).m ∧ (fadd b d).m ≤ 2 ^ 53 := by
  apply roundF64_bounds
  apply (toRat_pos_iff _).1
  rw [dAdd_toRat]
  have := (toRat_nonneg_iff b).2 hb0
  linarith

theorem Dyadic.fsub_eq_zero_of_toRat_eq (b a : Dyadic)
    (h : b.toRat = a.toRat) : fsub b a = ⟨0, 0⟩ := by
  have hm : (dSub b a).m = 0 :=
    (toRat_eq_zero_iff _).1 (by rw [dSub_toRat, h, sub_self])
  rw [fsub, roundF64, if_pos hm]

/-- C1 counterexample: with the binary64 arithmetic the program performs on
line 106, withdrawing `0.5` from balance `1e16` passes validation and the
funds check and succeeds, yet the new balance is (in value) exactly the old
balance — `1e16 - 0.5` rounds back to `1e16` — so it does not equal the
exact difference old balance minus amount. -/
theorem C1_counterexample :
    (fwithdraw ⟨⟨10000000000000000, 0⟩, "1234", 3, []⟩ ⟨1, -1⟩ "t").1
        = OpResult.ok ∧
    (Dyadic.dSub
        (fwithdraw ⟨⟨10000000000000000, 0⟩, "1234", 3, []⟩ ⟨1, -1⟩
          "t").2._balance
        ⟨10000000000000000, 0⟩).m = 0 ∧
    (Dyadic.dSub
        (fwithdraw ⟨⟨10000000000000000, 0⟩, "1234", 3, []⟩ ⟨1, -1⟩
          "t").2._balance
        (Dyadic.dSub ⟨10000000000000000, 0⟩ ⟨1, -1⟩)).m ≠ 0 :=
  ⟨by decide, by decide, by decide⟩

/-- C1 (amended): with the binary64 float arithmetic the program performs:
for every finite float balance and positive finite float amount, if the
amount is at most the balance then `withdraw` succeeds, appends a
withdrawal transaction, and the new balance is the binary64-rounded
difference `fsub balance amount` — equal to the exact difference only up to
rounding; an amount equal in value to the balance is permitted and leaves
the balance at exactly zero; if the amount exceeds the balance then
`withdraw` fails on the insufficient-funds path with the state
unchanged. -/
theorem C1_withdraw_float (atm : FATMSimulator) (amount : Dyadic)
    (now : String) (hpos : 0 < amount.toRat) :
    (amount.toRat ≤ atm._balance.toRat →
      fwithdraw atm amount now =
        (OpResult.ok,
          ⟨Dyadic.fsub atm._balance amount, atm._pin, atm._max_attempts,
            atm._transaction_history ++
              [⟨"withdrawal", amount, Dyadic.fsub atm._balance amount,
                now⟩]⟩)) ∧
    (atm._balance.toRat = amount.toRat →
      (fwithdraw atm amount now).2._balance = ⟨0, 0⟩) ∧
    (atm._balance.toRat < amount.toRat →
      fwithdraw atm amount now = (.insufficientFunds, atm)) := by
  have hval := Dyadic.dLe_zero_false_of_pos amount hpos
  refine ⟨?_, ?_, ?_⟩
  · intro hle
    have hlt := Dyadic.dLt_false_of_le amount atm._balance hle
    simp [fwithdraw, hval, hlt]
  · intro heq
    have hlt := Dyadic.dLt_false_of_le amount atm._balance (le_of_eq heq.symm)
    simp [fwithdraw, hval, hlt]
    exact Dyadic.fsub_eq_zero_of_toRat_eq _ _ heq
  · intro h
    have hlt : Dyadic.dLt atm._balance amount = true := (Dyadic.dLt_iff _ _).2 h
    simp [fwithdraw, hval, hlt]

theorem C1_withdraw_float_witness :
    (fwithdraw ⟨⟨1500, 0⟩, "1234", 3, []⟩ ⟨1500, 0⟩ "t").2._balance
      = ⟨0, 0⟩ :=
  (C1_withdraw_float ⟨⟨1500, 0⟩, "1234", 3, []⟩ ⟨1500, 0⟩ "t"
    ((Dyadic.toRat_pos_iff _).2 (by decide))).2.1 rfl

theorem fdepositSeq_run (ds : List (Dyadic × String)) :
    ∀ atm : FATMSimulator, (∀ p ∈ ds, 0 < p.1.toRat) →
      fdepositSeq atm ds =
        ⟨faddFold atm._balance (ds.map Prod.fst), atm._pin,
          atm._max_attempts,
          atm._transaction_history ++ fdepositTxns atm._balance ds⟩ := by
  induction ds with
  | nil =>
    intro atm _
    cases atm
    simp [fdepositSeq, faddFold, fdepositTxns]
  | cons p ds ih =>
    intro atm hpos
    obtain ⟨d, now⟩ := p
    have hd : 0 < d.toRat := hpos (d, now) (by simp)
    have hval := Dyadic.dLe_zero_false_of_pos d hd
    have hstep : (fdeposit atm d now).2 =
        ⟨Dyadic.fadd atm._balance d, atm._pin, atm._max_attempts,
          atm._transaction_history ++
            [⟨"deposit", d, Dyadic.fadd atm._balance d, now⟩]⟩ := by
      simp [fdeposit, hval]
    have hrec := ih (fdeposit atm d now).2
      (fun q hq => hpos q (List.mem_cons_of_mem _ hq))
    show fdepositSeq (fdeposit atm d now).2 ds = _
    rw [hrec, hstep]
    simp [faddFold, fdepositTxns, List.append_assoc]

theorem fdepositTxns_length (ds : List (Dyadic × String)) :
    ∀ b, (fdepositTxns b ds).length = ds.length := by
  induction ds with
  | nil => intro b; rfl
  | cons p ds ih =>
    intro b
    obtain ⟨d, now⟩ := p
    simp [fdepositTxns, ih]

theorem fdepositTxns_map_balance (ds : List (Dyadic × String)) :
    ∀ b, (fdepositTxns b ds).map FTransaction.balance
      = faddList b (ds.map Prod.fst) := by
  induction ds with
  | nil => intro b; rfl
  | cons p ds ih =>
    intro b
    obtain ⟨d, now⟩ := p
    simp [fdepositTxns, faddList, ih]

theorem faddList_head_le (b : Dyadic) (ds : List Dyadic)
    (hb0 : 0 ≤ b.m) (hb53 : b.m ≤ 2 ^ 53) (h : ∀ d ∈ ds, 0 < d.toRat) :
    ∀ y ∈ (faddList b ds).head?, b.toRat ≤ y.toRat := by
  cases ds with
  | nil => simp [faddList]
  | cons d ds =>
    simp [faddList]
    exact Dyadic.fadd_toRat_ge b d hb0 hb53 (h d (by simp))

theorem faddList_chain (ds : List Dyadic) :
    ∀ b : Dyadic, 0 ≤ b.m → b.m ≤ 2 ^ 53 → (∀ d ∈ ds, 0 < d.toRat) →
      List.Chain' (fun a c => a.toRat ≤ c.toRat) (faddList b ds) := by
  induction ds with
  | nil => intro b _ _ _; simp [faddList]
  | cons d ds ih =>
    intro b hb0 hb53 h
    rw [faddList, List.chain'_cons']
    have hrep := Dyadic.fadd_bounds b d hb0 (h d (by simp))
    exact ⟨faddList_head_le (Dyadic.fadd b d) ds hrep.1 hrep.2
        (fun x hx => h x (by simp [hx])),
      ih (Dyadic.fadd b d) hrep.1 hrep.2 (fun x hx => h x (by simp [hx]))⟩

/-- C3 counterexample: two valid (positive) deposits of the floats for
`0.10` and `0.20` on a fresh balance `1000`, executed with the program's
binary64 arithmetic, leave a balance that is not the exact sum
`1000 + d1 + d2`: the intermediate `+=` rounds, so the logged balances are
not the exact partial sums. -/
theorem C3_counterexample :
    0 < fl_0_10.toRat ∧ 0 < fl_0_20.toRat ∧
    (Dyadic.dSub
        (fdepositSeq ⟨⟨1000, 0⟩, "1234", 3, []⟩
          [(fl_0_10, "t1"), (fl_0_20, "t2")])._balance
        (Dyadic.dAdd (Dyadic.dAdd ⟨1000, 0⟩ fl_0_10) fl_0_20)).m ≠ 0 :=
  ⟨(Dyadic.toRat_pos_iff _).2 (by decide),
    (Dyadic.toRat_pos_iff _).2 (by decide), by decide⟩

/-- C3 (amended): with the binary64 float arithmetic the program performs:
applying a sequence of valid (positive finite float) deposits to a fresh
account whose initial balance is a non-negative representable float yields
the float-rounded accumulation `fl(..fl(fl(b0+d1)+d2)..+dn)` — not in
general the exact `b0 + Σ di` — a transaction log of length exactly `n`
whose recorded balance values are exactly those rounded running balances,
and these are monotonically non-decreasing. -/
theorem C3_deposit_sequence_float (b0 : Dyadic) (pin : String) (ma : ℕ)
    (ds : List (Dyadic × String)) (hb0 : 0 ≤ b0.m) (hb53 : b0.m ≤ 2 ^ 53)
    (hpos : ∀ p ∈ ds, 0 < p.1.toRat) :
    (fdepositSeq ⟨b0, pin, ma, []⟩ ds)._balance
        = faddFold b0 (ds.map Prod.fst) ∧
    (fdepositSeq ⟨b0, pin, ma, []⟩ ds)._transaction_history.length
        = ds.length ∧
    (fdepositSeq ⟨b0, pin, ma, []⟩ ds)._transaction_history.map
        FTransaction.balance = faddList b0 (ds.map Prod.fst) ∧
    List.Chain' (fun a c => a.toRat ≤ c.toRat)
      (faddList b0 (ds.map Prod.fst)) := by
  have h := fdepositSeq_run ds ⟨b0, pin, ma, []⟩ hpos
  rw [h]
  refine ⟨rfl, ?_, ?_, ?_⟩
  · simp [fdepositTxns_length]
  · simp [fdepositTxns_map_balance]
  · exact faddList_chain (ds.map Prod.fst) b0 hb0 hb53
      (fun d hd => by
        obtain ⟨p, hp, hpd⟩ := List.mem_map.1 hd
        exact hpd ▸ hpos p hp)

theorem C3_deposit_sequence_float_witness :
    (fdepositSeq ⟨⟨1000, 0⟩, "1234", 3, []⟩
        [(⟨500, 0⟩, "t1")])._balance = ⟨1500, 0⟩ := by
  have h := (C3_deposit_sequence_float ⟨1000, 0⟩ "1234" 3
    [(⟨500, 0⟩, "t1")] (by decide) (by decide)
    (by
      rintro p hp
      simp at hp
      subst hp
      exact (Dyadic.toRat_pos_iff _).2 (by decide))).1
  rw [h]
  decide
